import Mathlib

/-!
# Verification of the exact-match page aggregator (lightez-marketing)

Shallow embedding of the Python sources `src/app.py`, `src/naver.py` and
`src/naver_blog.py`.  The backend search API is modelled as a function from
a raw start offset to a response (HTTP status code plus a list of items);
the aggregator `fetch_filtered_page`, the tag stripper `strip_b_tags` and
the trend-series merger `datalab_to_dataframe` are translated from the
source line by line.
-/

namespace LightEz

/-- A search item as the aggregator sees it: `title` and `description` may
contain the backend's `<b>…</b>` emphasis markup; `link` stands for every
other field of the raw item dictionary, carried through untouched. -/
structure Item where
  title : String
  description : String
  link : String
deriving DecidableEq, Repr

/-- One response of the raw search backend: the HTTP status code and the
`items` array of the JSON body (empty when the body has none). -/
structure FetchResponse where
  code : Nat
  items : List Item
deriving Repr

/-- The remote search API, modelled as a function from the `start` offset to
the response that `cached_get(api_url, headers, {query, start, display,
sort})` would yield (query/sort/display are fixed within one aggregation
run, so they are not parameters of the model). -/
def Backend := Nat → FetchResponse

/-- Left-to-right scan of `re.sub(r"</?b>", "", text)` on the character
list: at each position, a literal `<b>` or `</b>` occurrence is removed
and the scan resumes after it; any other character is kept. -/
def stripBChars : List Char → List Char
  | [] => []
  | '<' :: 'b' :: '>' :: rest => stripBChars rest
  | '<' :: '/' :: 'b' :: '>' :: rest => stripBChars rest
  | c :: rest => c :: stripBChars rest

/-- `strip_b_tags` of `src/app.py` lines 55-58 (identical in
`src/naver.py` 48-51 and `src/naver_blog.py` 31-34), on string input. -/
def strip_b_tags (s : String) : String :=
  String.mk (stripBChars s.data)

/-- Python values reaching `strip_b_tags`: a string, or any non-string
value (opaque, indexed by a tag).  Models the dynamically-typed argument of
the Python function so that its `isinstance` guard is statable. -/
inductive PyVal where
  | str (s : String)
  | nonstr (tag : Nat)
deriving DecidableEq, Repr

/-- `strip_b_tags` on an arbitrary Python value: the
`if not isinstance(text, str): return text` guard returns non-string input
unchanged; string input goes through the regex substitution. -/
def strip_b_tags_py : PyVal → PyVal
  | .str s => .str (strip_b_tags s)
  | .nonstr t => .nonstr t

/-- `q` begins the character list `s` (Python `s.startswith(q)` on the
suffix under scan; helper for the substring test). -/
def leadsWith : List Char → List Char → Bool
  | [], _ => true
  | _ :: _, [] => false
  | a :: q, b :: s => a == b && leadsWith q s

/-- `q` occurs as a contiguous substring of `s`: Python's `q in s` on
strings (character lists here). -/
def containsChars (q : List Char) : List Char → Bool
  | [] => leadsWith q []
  | c :: s => leadsWith q (c :: s) || containsChars q s

/-- Python `needle in hay` on strings. -/
def strContains (hay needle : String) : Bool :=
  containsChars needle.data hay.data

/-- The exact-match predicate of `src/app.py` lines 115-117: the verbatim
query is a substring of the markup-stripped title or of the
markup-stripped description. -/
def matchesQuery (query : String) (it : Item) : Bool :=
  strContains (strip_b_tags it.title) query
    || strContains (strip_b_tags it.description) query

/-- The inner item loop of `fetch_filtered_page` (`src/app.py` lines
114-119): scan the block's items in arrival order, append each matching
item (the original item, markup intact) to the accumulator `matched`, and
break as soon as the accumulator reaches `targetFetch` elements. -/
def scanItems (query : String) (targetFetch : Nat) :
    List Item → List Item → List Item
  | [], matched => matched
  | it :: rest, matched =>
      if matchesQuery query it then
        let matched' := matched ++ [it]
        if targetFetch ≤ matched'.length then matched'
        else scanItems query targetFetch rest matched'
      else scanItems query targetFetch rest matched

/-- The probe loop of `fetch_filtered_page` (`src/app.py` lines 106-121):
for each start offset in turn, fetch a 100-item block; break on a
non-200 status, on an empty block, once the accumulator holds
`targetFetch` matches, or after a block of fewer than 100 items. -/
def probeLoop (B : Backend) (query : String) (targetFetch : Nat) :
    List Nat → List Item → List Item
  | [], matched => matched
  | start :: rest, matched =>
      let resp := B start
      if resp.code ≠ 200 then matched
      else if resp.items = [] then matched
      else
        let matched' := scanItems query targetFetch resp.items matched
        if targetFetch ≤ matched'.length ∨ resp.items.length < 100 then matched'
        else probeLoop B query targetFetch rest matched'

/-- `range(1, API_START_MAX + 1, API_PAGE_SIZE)` with
`API_START_MAX = 1000`, `API_PAGE_SIZE = 100`: the ten probed offsets
1, 101, …, 901. -/
def probeStarts : List Nat :=
  (List.range 10).map (fun i => 1 + 100 * i)

/-- `fetch_filtered_page` of `src/app.py` lines 97-126 (the same
computation as `src/naver.py` lines 85-116 and `src/naver_blog.py` lines
80-116 on an error-free backend): accumulate matches over the probed
blocks, then slice the accumulator to the requested page.  Returns
`(page_items, has_next, matched_count)`. -/
def fetch_filtered_page (B : Backend) (query : String)
    (page_size page_index : Nat) : List Item × Bool × Nat :=
  let target_fetch := page_index * page_size + 1
  let matched := probeLoop B query target_fetch probeStarts []
  let s := (page_index - 1) * page_size
  let e := s + page_size
  let page_items := if s < matched.length then (matched.drop s).take page_size else []
  let has_next := decide (e < matched.length)
  (page_items, has_next, matched.length)

/-- Reference (exhaustive) probe loop, written from the spec's words for
the refinement claim: identical to `probeLoop` except that it never stops
early on the match target — every block the backend can serve within the
1..1000 offset range is scanned and filtered in full. -/
def refLoop (B : Backend) (query : String) :
    List Nat → List Item → List Item
  | [], matched => matched
  | start :: rest, matched =>
      let resp := B start
      if resp.code ≠ 200 then matched
      else if resp.items = [] then matched
      else
        let matched' := matched ++ resp.items.filter (matchesQuery query)
        if resp.items.length < 100 then matched'
        else refLoop B query rest matched'

/-- The full ordered sequence of matching items a probe of the entire
1..1000 offset range of backend `B` would produce. -/
def referenceMatches (B : Backend) (query : String) : List Item :=
  refLoop B query probeStarts []

/-! ## Core lemmas: the early-stopping probe refines the exhaustive probe -/

/-- The inner scan, started below the target, computes exactly the first
`targetFetch` elements of the accumulator extended by the filtered block. -/
theorem scanItems_eq_take (q : String) (t : Nat) :
    ∀ (items acc : List Item), acc.length < t →
      scanItems q t items acc = (acc ++ items.filter (matchesQuery q)).take t
  | [], acc, h => by
      simp [scanItems, List.take_of_length_le (Nat.le_of_lt h)]
  | it :: rest, acc, h => by
      by_cases hm : matchesQuery q it
      · simp only [scanItems, hm, if_pos, List.filter_cons_of_pos hm]
        by_cases hstop : t ≤ (acc ++ [it]).length
        · have hlen : (acc ++ [it]).length = t := by
            have h1 : (acc ++ [it]).length = acc.length + 1 := by simp
            omega
          simp only [hstop, if_pos]
          rw [show acc ++ it :: List.filter (matchesQuery q) rest
                = (acc ++ [it]) ++ List.filter (matchesQuery q) rest by simp,
              List.take_append_of_le_length (Nat.le_of_eq hlen.symm),
              ← hlen, List.take_length]
        · simp only [hstop, if_neg, if_false]
          have h' : (acc ++ [it]).length < t := by
            simp only [List.length_append, List.length_cons, List.length_nil] at hstop ⊢
            omega
          rw [scanItems_eq_take q t rest (acc ++ [it]) h']
          simp
      · simp only [scanItems, hm, if_neg, if_false, List.filter_cons_of_neg (by simpa using hm)]
        exact scanItems_eq_take q t rest acc h

/-- The exhaustive probe only extends its accumulator. -/
theorem refLoop_acc (B : Backend) (q : String) :
    ∀ (L : List Nat) (acc : List Item), ∃ ext, refLoop B q L acc = acc ++ ext
  | [], acc => ⟨[], by simp [refLoop]⟩
  | st :: rest, acc => by
      by_cases hc : (B st).code ≠ 200
      · exact ⟨[], by simp [refLoop, hc]⟩
      · by_cases he : (B st).items = []
        · exact ⟨[], by simp [refLoop, hc, he]⟩
        · by_cases hs : (B st).items.length < 100
          · exact ⟨(B st).items.filter (matchesQuery q), by simp [refLoop, hc, he, hs]⟩
          · obtain ⟨ext, hext⟩ :=
              refLoop_acc B q rest (acc ++ (B st).items.filter (matchesQuery q))
            exact ⟨(B st).items.filter (matchesQuery q) ++ ext,
              by simp [refLoop, hc, he, hs, hext]⟩

/-- Refinement of the probe loop: started below the target, the
early-stopping loop yields exactly the first `t` matches of the
exhaustive loop. -/
theorem probeLoop_eq_take (B : Backend) (q : String) (t : Nat) :
    ∀ (L : List Nat) (acc : List Item), acc.length < t →
      probeLoop B q t L acc = (refLoop B q L acc).take t
  | [], acc, h => by
      simp [probeLoop, refLoop, List.take_of_length_le (Nat.le_of_lt h)]
  | st :: rest, acc, h => by
      by_cases hc : (B st).code ≠ 200
      · simp [probeLoop, refLoop, hc, List.take_of_length_le (Nat.le_of_lt h)]
      · by_cases he : (B st).items = []
        · simp [probeLoop, refLoop, hc, he, List.take_of_length_le (Nat.le_of_lt h)]
        · simp only [probeLoop, refLoop, hc, he, if_neg, if_false,
            scanItems_eq_take q t (B st).items acc h]
          set f := (B st).items.filter (matchesQuery q) with hf
          by_cases hbig : t ≤ (acc ++ f).length
          · have hbig' : t ≤ acc.length + f.length := by simpa using hbig
            have hlen : ((acc ++ f).take t).length = t := by
              simp only [List.length_take, List.length_append]
              omega
            have hcond : t ≤ ((acc ++ f).take t).length ∨ (B st).items.length < 100 :=
              Or.inl (Nat.le_of_eq hlen.symm)
            simp only [hcond, if_pos]
            by_cases hs : (B st).items.length < 100
            · simp [hs, List.take_take]
            · simp only [hs, if_neg, if_false]
              obtain ⟨ext, hext⟩ := refLoop_acc B q rest (acc ++ f)
              rw [hext, List.take_append_of_le_length hbig]
          · have hsmall : (acc ++ f).length < t := Nat.lt_of_not_le hbig
            have htk : (acc ++ f).take t = acc ++ f :=
              List.take_of_length_le (Nat.le_of_lt hsmall)
            rw [htk]
            have hcond : ¬ t ≤ (acc ++ f).length := hbig
            by_cases hs : (B st).items.length < 100
            · simp [hs, hcond, List.take_of_length_le (Nat.le_of_lt hsmall)]
            · rw [if_neg (fun hor => hor.elim hcond hs), if_neg hs]
              exact probeLoop_eq_take B q t rest (acc ++ f) hsmall

/-- The accumulator of a full aggregation run is exactly the first
`page_index * page_size + 1` elements of the exhaustive match sequence. -/
theorem matched_eq_take (B : Backend) (q : String) (ps p : Nat) :
    probeLoop B q (p * ps + 1) probeStarts []
      = (referenceMatches B q).take (p * ps + 1) :=
  probeLoop_eq_take B q (p * ps + 1) probeStarts [] (Nat.succ_pos _)

/-- All three components of a `fetch_filtered_page` result, expressed over
the exhaustive match sequence (page index written `k + 1` so that the
Python `page_index - 1` is the natural number `k`). -/
theorem fetch_components (B : Backend) (q : String) (ps k : Nat) :
    (fetch_filtered_page B q ps (k + 1)).1
        = ((referenceMatches B q).drop (k * ps)).take ps
    ∧ ((fetch_filtered_page B q ps (k + 1)).2.1 = true
        ↔ (k + 1) * ps < (referenceMatches B q).length)
    ∧ (fetch_filtered_page B q ps (k + 1)).2.2
        = min ((k + 1) * ps + 1) (referenceMatches B q).length := by
  have hm := matched_eq_take B q ps (k + 1)
  have hexp : (k + 1) * ps + 1 = k * ps + ps + 1 := by ring
  simp only [fetch_filtered_page, hm, Nat.add_sub_cancel]
  set ref := referenceMatches B q with href
  refine ⟨?_, ?_, ?_⟩
  · by_cases hlt : k * ps < (ref.take ((k + 1) * ps + 1)).length
    · rw [if_pos hlt, List.drop_take, List.take_take]
      have : (k + 1) * ps + 1 - k * ps = ps + 1 := by omega
      rw [this]
      have : ps ⊓ (ps + 1) = ps := by omega
      rw [this]
    · rw [if_neg hlt]
      have h1 : (ref.take ((k + 1) * ps + 1)).length
          = ((k + 1) * ps + 1) ⊓ ref.length := List.length_take _ _
      have h2 : ref.length ≤ k * ps := by omega
      rw [List.drop_eq_nil_of_le h2, List.take_nil]
  · have h1 : (ref.take ((k + 1) * ps + 1)).length
        = ((k + 1) * ps + 1) ⊓ ref.length := List.length_take _ _
    have h2 : (k + 1) * ps = k * ps + ps := by ring
    simp only [decide_eq_true_eq]
    omega
  · have h1 : (ref.take ((k + 1) * ps + 1)).length
        = ((k + 1) * ps + 1) ⊓ ref.length := List.length_take _ _
    omega

/-! ## Claim theorems for the aggregator -/

/-- Claim C2: for `pageSize ≥ 1` and `pageIndex ≥ 1`, the items returned
by `fetch_filtered_page` are exactly the slice
`[(pageIndex-1)*pageSize, pageIndex*pageSize)` of the full ordered match
sequence an exhaustive probe of the whole 1..1000 offset range would
produce, and their number is at most `pageSize`: the early-stopping probe
is equivalent to the exhaustive reference on the requested page. -/
theorem C2_page_slice_of_reference (B : Backend) (q : String) (ps p : Nat)
    (hps : 1 ≤ ps) (hp : 1 ≤ p) :
    (fetch_filtered_page B q ps p).1
        = ((referenceMatches B q).drop ((p - 1) * ps)).take ps
    ∧ (fetch_filtered_page B q ps p).1.length ≤ ps := by
  obtain ⟨k, rfl⟩ : ∃ k, p = k + 1 := ⟨p - 1, by omega⟩
  have h := (fetch_components B q ps k).1
  simp only [Nat.add_sub_cancel]
  exact ⟨h, by rw [h]; exact List.length_take_le _ _⟩

/-- Claim C3: for `pageSize ≥ 1` and `pageIndex = k ≥ 1`, the `hasNext`
flag is true iff there is at least one match beyond index `k * pageSize`
in the match sequence discoverable within the backend's 1000-item cap. -/
theorem C3_hasNext_iff_more_matches (B : Backend) (q : String) (ps p : Nat)
    (hps : 1 ≤ ps) (hp : 1 ≤ p) :
    (fetch_filtered_page B q ps p).2.1 = true
      ↔ p * ps < (referenceMatches B q).length := by
  obtain ⟨k, rfl⟩ : ∃ k, p = k + 1 := ⟨p - 1, by omega⟩
  exact (fetch_components B q ps k).2.1

/-- Claim C6: when `pageIndex * pageSize > 1000` and the backend yields
fewer than 1000 matching items, `fetch_filtered_page` returns
`hasNext = false` and an items list no longer than `pageSize` (the
computation is total, so it cannot raise for any in-range input). -/
theorem C6_cap_boundary (B : Backend) (q : String) (ps p : Nat)
    (hps : 1 ≤ ps) (hp : 1 ≤ p) (hcap : 1000 < p * ps)
    (hfew : (referenceMatches B q).length < 1000) :
    (fetch_filtered_page B q ps p).2.1 = false
    ∧ (fetch_filtered_page B q ps p).1.length ≤ ps := by
  obtain ⟨k, rfl⟩ : ∃ k, p = k + 1 := ⟨p - 1, by omega⟩
  obtain ⟨h1, h2, h3⟩ := fetch_components B q ps k
  constructor
  · rcases hb : (fetch_filtered_page B q ps (k + 1)).2.1 with _ | _
    · rfl
    · exact absurd (h2.mp hb) (by omega)
  · rw [h1]; exact List.length_take_le _ _

/-- Claim C7: every result satisfies the PageResult invariant — when
`items` is non-empty, `matchedCount ≥ items.length + (pageIndex-1)*pageSize`,
and when `hasNext` is true, `matchedCount > pageIndex*pageSize`. -/
theorem C7_pageresult_invariant (B : Backend) (q : String) (ps p : Nat)
    (hps : 1 ≤ ps) (hp : 1 ≤ p) :
    ((fetch_filtered_page B q ps p).1 ≠ [] →
      (fetch_filtered_page B q ps p).1.length + (p - 1) * ps
        ≤ (fetch_filtered_page B q ps p).2.2)
    ∧ ((fetch_filtered_page B q ps p).2.1 = true →
      p * ps < (fetch_filtered_page B q ps p).2.2) := by
  obtain ⟨k, rfl⟩ : ∃ k, p = k + 1 := ⟨p - 1, by omega⟩
  obtain ⟨h1, h2, h3⟩ := fetch_components B q ps k
  set ref := referenceMatches B q with href
  have hexp : (k + 1) * ps = k * ps + ps := by ring
  constructor
  · intro hne
    have hlen : (fetch_filtered_page B q ps (k + 1)).1.length
        = ps ⊓ (ref.length - k * ps) := by
      rw [h1, List.length_take, List.length_drop]
    have hpos : 0 < (fetch_filtered_page B q ps (k + 1)).1.length :=
      List.length_pos.mpr hne
    simp only [Nat.add_sub_cancel, h3]
    omega
  · intro hnext
    have := h2.mp hnext
    rw [h3]
    omega

/-- Claim C10: `matchedCount` is the probe-truncated count — it equals the
exhaustive match count clipped at `pageIndex*pageSize + 1`, so it never
exceeds that bound even when the backend holds more matches (stated for
every `page_size` and `page_index`, which covers the claim's
`pageSize ≥ 1`, `pageIndex ≥ 1` range). -/
theorem C10_matchedCount_truncated (B : Backend) (q : String) (ps p : Nat) :
    (fetch_filtered_page B q ps p).2.2
        = min (p * ps + 1) (referenceMatches B q).length
    ∧ (fetch_filtered_page B q ps p).2.2 ≤ p * ps + 1 := by
  have hm := matched_eq_take B q ps p
  simp only [fetch_filtered_page, hm]
  have h1 : ((referenceMatches B q).take (p * ps + 1)).length
      = (p * ps + 1) ⊓ (referenceMatches B q).length := List.length_take _ _
  exact ⟨h1, by omega⟩

/-! ## Concrete backends for the witnesses -/

/-- A small concrete backend: offset 1 serves three items that all pass
the exact-match test for the query "Test review" (one via the stripped
title, one via the description, one by plain inclusion); every later
offset serves an empty block. -/
def demoBackend : Backend := fun start =>
  if start = 1 then
    ⟨200, [⟨"<b>Test</b> review", "d1", "u1"⟩,
           ⟨"no", "a Test review here", "u2"⟩,
           ⟨"Test reviews", "", "u3"⟩]⟩
  else ⟨200, []⟩

/-- A backend whose every block is empty (zero results for the query). -/
def emptyBackend : Backend := fun _ => ⟨200, []⟩

theorem C2_page_slice_of_reference_witness :
    (1 ≤ 2 ∧ 1 ≤ 2)
    ∧ (fetch_filtered_page demoBackend "Test review" 2 2).1
        = ((referenceMatches demoBackend "Test review").drop ((2 - 1) * 2)).take 2
    ∧ (fetch_filtered_page demoBackend "Test review" 2 2).1.length ≤ 2 :=
  ⟨⟨by decide, by decide⟩,
    C2_page_slice_of_reference demoBackend "Test review" 2 2 (by decide) (by decide)⟩

theorem C3_hasNext_iff_more_matches_witness :
    (1 ≤ 1 ∧ 1 ≤ 2)
    ∧ ((fetch_filtered_page demoBackend "Test review" 1 2).2.1 = true
        ↔ 2 * 1 < (referenceMatches demoBackend "Test review").length) :=
  ⟨⟨by decide, by decide⟩,
    C3_hasNext_iff_more_matches demoBackend "Test review" 1 2 (by decide) (by decide)⟩

theorem C6_cap_boundary_witness :
    (1 ≤ 501 ∧ 1 ≤ 2 ∧ 1000 < 2 * 501
      ∧ (referenceMatches emptyBackend "q").length < 1000)
    ∧ (fetch_filtered_page emptyBackend "q" 501 2).2.1 = false
    ∧ (fetch_filtered_page emptyBackend "q" 501 2).1.length ≤ 501 :=
  ⟨⟨by decide, by decide, by decide, by decide⟩,
    C6_cap_boundary emptyBackend "q" 501 2 (by decide) (by decide) (by decide) (by decide)⟩

theorem C7_pageresult_invariant_witness :
    (fetch_filtered_page demoBackend "Test review" 1 1).1.length + (1 - 1) * 1
      ≤ (fetch_filtered_page demoBackend "Test review" 1 1).2.2
    ∧ 1 * 1 < (fetch_filtered_page demoBackend "Test review" 1 1).2.2 :=
  ⟨(C7_pageresult_invariant demoBackend "Test review" 1 1 (by decide) (by decide)).1
      (by decide),
   (C7_pageresult_invariant demoBackend "Test review" 1 1 (by decide) (by decide)).2
      (by decide)⟩

/-! ## Claim C1: the inner scan appends exactly the matching items -/

/-- Claim C1: the inner loop of `fetch_filtered_page` scans some prefix of
the block's items (all of them unless the target is reached first), and
the accumulator gains exactly those scanned items for which the verbatim,
case-sensitive query is a substring of the markup-stripped title or
markup-stripped description — appended as the original items with their
markup intact (`List.filter` keeps the items themselves, not the stripped
forms). -/
theorem C1_scan_appends_iff_match (q : String) (t : Nat)
    (items matched : List Item) :
    ∃ k, k ≤ items.length
    ∧ scanItems q t items matched
        = matched ++ (items.take k).filter (matchesQuery q)
    ∧ (k = items.length
        ∨ t ≤ (matched ++ (items.take k).filter (matchesQuery q)).length) := by
  induction items generalizing matched with
  | nil => exact ⟨0, by simp [scanItems]⟩
  | cons it rest ih =>
      by_cases hm : matchesQuery q it
      · by_cases hstop : t ≤ (matched ++ [it]).length
        · refine ⟨1, by simp, ?_, ?_⟩
          · simp only [scanItems, hm, if_pos, List.take_succ_cons, List.take_zero,
              List.filter_cons_of_pos hm, List.filter_nil]
            rw [if_pos hstop]
          · right
            simpa [List.filter_cons, hm, List.take_succ_cons] using hstop
        · obtain ⟨k, hk, heq, hlast⟩ := ih (matched ++ [it])
          refine ⟨k + 1, by simpa using hk, ?_, ?_⟩
          · simp only [scanItems, hm, if_pos, hstop, if_neg, if_false,
              List.take_succ_cons, List.filter_cons_of_pos hm]
            rw [heq]
            simp
          · rcases hlast with h1 | h1
            · left; simp [h1]
            · right
              simpa [List.take_succ_cons, List.filter_cons_of_pos hm] using h1
      · obtain ⟨k, hk, heq, hlast⟩ := ih matched
        refine ⟨k + 1, by simpa using hk, ?_, ?_⟩
        · simp only [scanItems, hm, if_neg, if_false, List.take_succ_cons,
            List.filter_cons_of_neg (by simpa using hm)]
          exact heq
        · rcases hlast with h1 | h1
          · left; simp [h1]
          · right
            simpa [List.take_succ_cons, List.filter_cons_of_neg (by simpa using hm)]
              using h1

/-! ## Claim C5: bounded number of block fetches -/

/-- The probe loop of `fetch_filtered_page`, instrumented with the number
of backend block fetches (`cached_get` calls) it issues: the accumulator
is computed exactly as in `probeLoop`, and each visited offset counts as
one fetch. -/
def probeLoopCount (B : Backend) (query : String) (targetFetch : Nat) :
    List Nat → List Item → List Item × Nat
  | [], matched => (matched, 0)
  | start :: rest, matched =>
      let resp := B start
      if resp.code ≠ 200 then (matched, 1)
      else if resp.items = [] then (matched, 1)
      else
        let matched' := scanItems query targetFetch resp.items matched
        if targetFetch ≤ matched'.length ∨ resp.items.length < 100 then (matched', 1)
        else
          let r := probeLoopCount B query targetFetch rest matched'
          (r.1, r.2 + 1)

/-- Number of backend block fetches one `fetch_filtered_page` run issues. -/
def fetchCalls (B : Backend) (query : String) (page_size page_index : Nat) : Nat :=
  (probeLoopCount B query (page_index * page_size + 1) probeStarts []).2

/-- The instrumented loop computes the same accumulator as the source's
loop. -/
theorem probeLoopCount_fst (B : Backend) (q : String) (t : Nat) :
    ∀ (L : List Nat) (acc : List Item),
      (probeLoopCount B q t L acc).1 = probeLoop B q t L acc
  | [], acc => rfl
  | st :: rest, acc => by
      simp only [probeLoopCount, probeLoop]
      by_cases hc : (B st).code ≠ 200
      · simp [hc]
      · by_cases he : (B st).items = []
        · simp [hc, he]
        · by_cases hs : t ≤ (scanItems q t (B st).items acc).length
            ∨ (B st).items.length < 100
          · simp [hc, he, hs]
          · simp [hc, he, hs, probeLoopCount_fst B q t rest]

/-- The loop never fetches more blocks than there are probed offsets. -/
theorem probeLoopCount_le (B : Backend) (q : String) (t : Nat) :
    ∀ (L : List Nat) (acc : List Item),
      (probeLoopCount B q t L acc).2 ≤ L.length
  | [], acc => by simp [probeLoopCount]
  | st :: rest, acc => by
      simp only [probeLoopCount]
      by_cases hc : (B st).code ≠ 200
      · simp [hc]
      · by_cases he : (B st).items = []
        · simp [hc, he]
        · by_cases hs : t ≤ (scanItems q t (B st).items acc).length
            ∨ (B st).items.length < 100
          · simp [hc, he, hs]
          · have hrec := probeLoopCount_le B q t rest
              (scanItems q t (B st).items acc)
            rw [if_neg hc, if_neg he, if_neg hs]
            simp only [List.length_cons]
            omega

/-- Claim C5: an aggregation run issues at most 10 block fetches (the
instrumented loop agrees with the source's loop on the accumulator), and
if the first block alone already yields `neededMatches = pageIndex *
pageSize + 1` matches, exactly one fetch is issued. -/
theorem C5_bounded_fetches (B : Backend) (q : String) (ps p : Nat) :
    (probeLoopCount B q (p * ps + 1) probeStarts []).1
        = probeLoop B q (p * ps + 1) probeStarts []
    ∧ fetchCalls B q ps p ≤ 10
    ∧ ((B 1).code = 200 → (B 1).items ≠ [] →
        p * ps + 1 ≤ (scanItems q (p * ps + 1) (B 1).items []).length →
        fetchCalls B q ps p = 1) := by
  refine ⟨probeLoopCount_fst B q _ probeStarts [], ?_, ?_⟩
  · have h := probeLoopCount_le B q (p * ps + 1) probeStarts []
    simpa [probeStarts] using h
  · intro hc hne hreach
    have hstarts : probeStarts = 1 :: [101, 201, 301, 401, 501, 601, 701, 801, 901] := by
      decide
    unfold fetchCalls
    rw [hstarts]
    simp [probeLoopCount, hc, hne, hreach]

/-- A backend whose first block is full (100 items) and all-matching for
the query "a"; later offsets still hold data, so only the match target can
stop the probe after one fetch. -/
def firstBlockBackend : Backend := fun _ =>
  ⟨200, List.replicate 100 ⟨"a", "", "u"⟩⟩

theorem C5_bounded_fetches_witness :
    ((firstBlockBackend 1).code = 200 ∧ (firstBlockBackend 1).items ≠ []
      ∧ 1 * 1 + 1 ≤ (scanItems "a" (1 * 1 + 1) (firstBlockBackend 1).items []).length)
    ∧ (probeLoopCount firstBlockBackend "a" (1 * 1 + 1) probeStarts []).1
        = probeLoop firstBlockBackend "a" (1 * 1 + 1) probeStarts []
    ∧ fetchCalls firstBlockBackend "a" 1 1 ≤ 10
    ∧ fetchCalls firstBlockBackend "a" 1 1 = 1 :=
  ⟨⟨rfl, by decide, by decide⟩,
    (C5_bounded_fetches firstBlockBackend "a" 1 1).1,
    (C5_bounded_fetches firstBlockBackend "a" 1 1).2.1,
    (C5_bounded_fetches firstBlockBackend "a" 1 1).2.2 rfl (by decide) (by decide)⟩

/-! ## Claim C4: behaviour on a mid-probe fetch error

`src/app.py` reads the status code itself (`cached_get` returns it) and
breaks out of the probe loop on a non-200 response, so its
`fetch_filtered_page` returns the partially accumulated result.  By
contrast, `call_search` of `src/naver.py` (lines 71-82) and `call_api` of
`src/naver_blog.py` (lines 54-77) call `st.error(...)` followed by
`st.stop()` on a non-200 response: `st.stop` raises Streamlit's stop
exception and the script run ends without any return value.  A halted run
is modelled as `none`. -/

/-- `call_search` of `src/naver.py` lines 71-82 (same control flow as
`call_api` of `src/naver_blog.py` lines 54-77): returns the response items
on HTTP 200, and halts the whole script run (`st.stop()`, modelled as
`none`) on any other status. -/
def call_search (B : Backend) (start : Nat) : Option (List Item) :=
  if (B start).code ≠ 200 then none else some (B start).items

/-- The probe loop of `fetch_filtered_page` in `src/naver.py` lines
95-110: identical accumulation, but a block fetch with a non-success
status halts the run (propagated `none`) instead of breaking the loop. -/
def probeLoopNaver (B : Backend) (query : String) (targetFetch : Nat) :
    List Nat → List Item → Option (List Item)
  | [], matched => some matched
  | start :: rest, matched =>
      match call_search B start with
      | none => none
      | some items =>
        if items = [] then some matched
        else
          let matched' := scanItems query targetFetch items matched
          if targetFetch ≤ matched'.length then some matched'
          else if items.length < 100 then some matched'
          else probeLoopNaver B query targetFetch rest matched'

/-- `fetch_filtered_page` of `src/naver.py` lines 85-116 (and of
`src/naver_blog.py` lines 80-116): the aggregation yields no PageResult
at all when a block fetch fails mid-probe. -/
def fetch_filtered_page_naver (B : Backend) (query : String)
    (page_size page_index : Nat) : Option (List Item × Bool × Nat) :=
  (probeLoopNaver B query (page_index * page_size + 1) probeStarts []).map
    (fun matched =>
      let s := (page_index - 1) * page_size
      let e := s + page_size
      (if s < matched.length then (matched.drop s).take page_size else [],
        decide (e < matched.length), matched.length))

/-- A backend whose first block is full (100 matching items) and whose
second block answers HTTP 500: the probe must continue past block one and
then meets the failure. -/
def failingBackend : Backend := fun start =>
  if start = 1 then ⟨200, List.replicate 100 ⟨"review", "", "u"⟩⟩
  else ⟨500, []⟩

/-- Claim C4, counterexample: against `failingBackend` (second block
fails) the `src/naver.py` aggregation run produces no result at all — the
run is halted by `st.stop()` inside `call_search` — refuting "the
aggregation operation itself never fails or raises on a mid-probe fetch
error" for the naver.py/naver_blog.py variants cited by the claim.  The
app.py variant does degrade to the 100 matches accumulated before the
failure. -/
theorem C4_counterexample :
    fetch_filtered_page_naver failingBackend "review" 150 1 = none
    ∧ (fetch_filtered_page failingBackend "review" 150 1).2.2 = 100 := by
  constructor
  · rfl
  · rfl

/-- Claim C4, amended: when a block fetch returns a non-success status,
the `src/app.py` probe loop stops there and keeps only what was
accumulated before the failure (the enclosing `fetch_filtered_page` then
returns items, hasNext and matchedCount computed from that accumulator),
while the `src/naver.py` / `src/naver_blog.py` variant halts the whole
run at that block and produces no result. -/
theorem C4_error_degradation (B : Backend) (q : String) (t st : Nat)
    (rest : List Nat) (acc : List Item) (hfail : (B st).code ≠ 200) :
    probeLoop B q t (st :: rest) acc = acc
    ∧ probeLoopNaver B q t (st :: rest) acc = none := by
  constructor
  · simp [probeLoop, hfail]
  · simp [probeLoopNaver, call_search, hfail]

theorem C4_error_degradation_witness :
    (failingBackend 101).code ≠ 200
    ∧ probeLoop failingBackend "review" 5 (101 :: [201]) [] = []
    ∧ probeLoopNaver failingBackend "review" 5 (101 :: [201]) [] = none :=
  ⟨by decide,
    (C4_error_degradation failingBackend "review" 5 101 [201] [] (by decide)).1,
    (C4_error_degradation failingBackend "review" 5 101 [201] [] (by decide)).2⟩

/-! ## Claim C8: the tag stripper -/

/-- Head preservation: when the text under scan does not begin with the
open tag or the close tag, the regex scan keeps its first character
untouched and continues on the tail. -/
theorem stripBChars_cons_of_no_tag (c : Char) (l : List Char)
    (h1 : leadsWith ['<', 'b', '>'] (c :: l) = false)
    (h2 : leadsWith ['<', '/', 'b', '>'] (c :: l) = false) :
    stripBChars (c :: l) = c :: stripBChars l := by
  rw [stripBChars.eq_def]
  split
  · next heq => exact absurd heq (by simp)
  · next r heq =>
      rw [heq] at h1
      simp [leadsWith] at h1
  · next r heq =>
      rw [heq] at h2
      simp [leadsWith] at h2
  · next c' r hno1 hno2 heq =>
      injection heq with hc hl
      rw [hc, hl]

/-- `leadsWith q l` is the textbook "q begins l" relation. -/
theorem leadsWith_iff : ∀ (q l : List Char), leadsWith q l = true ↔ ∃ r, l = q ++ r
  | [], l => by
      simp [leadsWith]
  | a :: q, [] => by
      simp [leadsWith]
  | a :: q, b :: l => by
      simp only [leadsWith, Bool.and_eq_true, beq_iff_eq, leadsWith_iff q l,
        List.cons_append]
      constructor
      · rintro ⟨rfl, r, rfl⟩
        exact ⟨r, rfl⟩
      · rintro ⟨r, heq⟩
        injection heq with hab hlr
        exact ⟨hab.symm, r, hlr⟩

/-- The scan only deletes characters: its output is a subsequence of its
input (no character is altered, reordered or inserted). -/
theorem stripBChars_sublist : ∀ l : List Char, (stripBChars l).Sublist l := by
  intro l
  induction l using stripBChars.induct with
  | case1 => simp [stripBChars]
  | case2 rest ih =>
      rw [show stripBChars ('<' :: 'b' :: '>' :: rest) = stripBChars rest from rfl]
      exact ((ih.cons '>').cons 'b').cons '<'
  | case3 rest ih =>
      rw [show stripBChars ('<' :: '/' :: 'b' :: '>' :: rest) = stripBChars rest from rfl]
      exact (((ih.cons '>').cons 'b').cons '/').cons '<'
  | case4 c rest hno1 hno2 ih =>
      have h1 : leadsWith ['<', 'b', '>'] (c :: rest) = false := by
        rcases hb : leadsWith ['<', 'b', '>'] (c :: rest) with _ | _
        · rfl
        · obtain ⟨r, heq⟩ := (leadsWith_iff _ _).mp hb
          injection heq with hc hrest
          exact ((hno1 r hc hrest).elim : False).elim
      have h2 : leadsWith ['<', '/', 'b', '>'] (c :: rest) = false := by
        rcases hb : leadsWith ['<', '/', 'b', '>'] (c :: rest) with _ | _
        · rfl
        · obtain ⟨r, heq⟩ := (leadsWith_iff _ _).mp hb
          injection heq with hc hrest
          exact ((hno2 r hc hrest).elim : False).elim
      rw [stripBChars_cons_of_no_tag c rest h1 h2]
      exact ih.cons₂ c

/-- Claim C8: `strip_b_tags` removes exactly the backend emphasis
open/close tag pair and leaves every other character (whitespace
included) untouched — an occurrence of either tag at the scan position is
deleted, any other character is kept verbatim, and the output is a
subsequence of the input; the empty string and non-string Python input
are returned unchanged, and the function is a pure function of its
argument. -/
theorem C8_strip_exact_tags :
    strip_b_tags "" = ""
    ∧ (∀ tg : Nat, strip_b_tags_py (PyVal.nonstr tg) = PyVal.nonstr tg)
    ∧ (∀ l, stripBChars ('<' :: 'b' :: '>' :: l) = stripBChars l)
    ∧ (∀ l, stripBChars ('<' :: '/' :: 'b' :: '>' :: l) = stripBChars l)
    ∧ (∀ c l, leadsWith ['<', 'b', '>'] (c :: l) = false →
        leadsWith ['<', '/', 'b', '>'] (c :: l) = false →
        stripBChars (c :: l) = c :: stripBChars l)
    ∧ (∀ l : List Char, (stripBChars l).Sublist l) :=
  ⟨rfl, fun _ => rfl, fun _ => rfl, fun _ => rfl,
    stripBChars_cons_of_no_tag, stripBChars_sublist⟩

theorem C8_strip_exact_tags_witness :
    leadsWith ['<', 'b', '>'] ('T' :: " est".data) = false
    ∧ leadsWith ['<', '/', 'b', '>'] ('T' :: " est".data) = false
    ∧ stripBChars ('T' :: " est".data) = 'T' :: stripBChars " est".data :=
  ⟨by decide, by decide,
    C8_strip_exact_tags.2.2.2.2.1 'T' " est".data (by decide) (by decide)⟩

/-! ## Claim C9: the DataLab trend-series merger

`datalab_to_dataframe` (`src/app.py` lines 148-163, identical to
`src/naver.py` lines 152-176) is built on pandas.  The pandas objects are
modelled as follows: a data frame built by this pipeline always consists
of the `period` key column plus one value column per keyword group, so a
`Frame` is a list of column names and a list of rows, each row a period
key (`none` models a missing value / NaN) and one optional numeric cell
per column.  Ratio values are only carried, never computed with, so an
integer stands in for the opaque number.  `merge(·, on="period",
how="outer")` is modelled for frames whose keys are unique within each
frame — the only shape this pipeline's surviving groups produce under the
claim's reading (a time series, one point per period); with duplicated
keys pandas would emit a cross product, which the claim does not
describe, so the claim theorem carries that as a hypothesis. -/

/-- One point of a DataLab series: the `period` and `ratio` fields of the
JSON point object, each possibly absent from the dict. -/
structure Point where
  period : Option String
  ratio : Option Int
deriving DecidableEq, Repr

/-- One keyword group of a DataLab response: the name candidates the
source probes with `.get`, plus the list of data points. -/
structure Group where
  title : Option String
  keyword : Option String
  groupName : Option String
  data : List Point
deriving DecidableEq, Repr

/-- Python `a or b` for an optional string `a`: `None` and the empty
string are falsy and fall through to `b`. -/
def pyOrStr (a : Option String) (b : String) : String :=
  match a with
  | some s => if s = "" then b else s
  | none => b

/-- `group.get("title") or group.get("keyword") or group.get("groupName")
or "keyword"` of `src/app.py` line 152. -/
def seriesName (g : Group) : String :=
  pyOrStr g.title (pyOrStr g.keyword (pyOrStr g.groupName "keyword"))

/-- `pd.DataFrame(pts)` has a `period` column iff some point dict carries
the key. -/
def hasPeriodCol (pts : List Point) : Bool :=
  pts.any (fun p => p.period.isSome)

/-- `pd.DataFrame(pts)` has a `ratio` column iff some point dict carries
the key. -/
def hasRatioCol (pts : List Point) : Bool :=
  pts.any (fun p => p.ratio.isSome)

/-- The filter of `src/app.py` lines 153-156: a group survives when it
has data points and its frame has both a `period` and a `ratio` column
(`df.empty` is then necessarily false, dead code in the source). -/
def survives (g : Group) : Bool :=
  !g.data.isEmpty && hasPeriodCol g.data && hasRatioCol g.data

/-- A data frame as this pipeline shapes it: the implicit `period` key
column plus the named value columns; each row is its period key and its
cells, positionally aligned with `cols`. -/
structure Frame where
  cols : List String
  rows : List (Option String × List (Option Int))
deriving DecidableEq, Repr

/-- `df.rename(columns={"ratio": name})[["period", name]]` applied to
`pd.DataFrame(pts)`: one value column named after the group, one row per
point in order, keyed by the point's period. -/
def groupFrame (g : Group) : Frame :=
  ⟨[seriesName g], g.data.map (fun p => (p.period, [p.ratio]))⟩

/-- One left-hand row of the outer merge: the row of `base` keeps its
period key and is extended by the cells of the matching row of `f`, or by
nulls when `f` has no row with that period. -/
def mergeRowLeft (f : Frame) (r : Option String × List (Option Int)) :
    Option String × List (Option Int) :=
  match f.rows.find? (fun s => s.1 == r.1) with
  | some s => (r.1, r.2 ++ s.2)
  | none => (r.1, r.2 ++ f.cols.map (fun _ => (none : Option Int)))

/-- `base.merge(f, on="period", how="outer")` for key-unique frames:
every row of `base` in order, extended via `mergeRowLeft`, followed by
the rows of `f` whose period appears nowhere in `base`, their missing
cells null-padded on the left. -/
def mergeOuter (base f : Frame) : Frame :=
  ⟨base.cols ++ f.cols,
    base.rows.map (mergeRowLeft f)
    ++ (f.rows.filter (fun s => !base.rows.any (fun r => r.1 == s.1))).map
        (fun s => (s.1, base.cols.map (fun _ => (none : Option Int)) ++ s.2))⟩

/-- The row order of `sort_values("period")`: ascending by period
(lexicographic string order), missing periods (NaN) last. -/
def keyLE : Option String × List (Option Int) → Option String × List (Option Int) → Bool
  | (none, _), (none, _) => true
  | (none, _), (some _, _) => false
  | (some _, _), (none, _) => true
  | (some a, _), (some b, _) => decide (a ≤ b)

/-- `base.sort_values("period")` followed by `reset_index(drop=True)`
(the integer index is not part of the model). -/
def sortFrame (F : Frame) : Frame :=
  ⟨F.cols, F.rows.mergeSort keyLE⟩

/-- `datalab_to_dataframe` of `src/app.py` lines 148-163: keep the
surviving groups' two-column frames in order, return the explicitly empty
frame when none survive, otherwise outer-merge them left to right on
`period` and sort by `period` (the key column always exists after the
merge, so the source's `if "period" in base.columns` guard always takes
its sort branch). -/
def datalab_to_dataframe (results : List Group) : Frame :=
  match (results.filter survives).map groupFrame with
  | [] => ⟨[], []⟩
  | f0 :: rest => sortFrame (rest.foldl mergeOuter f0)

/-- The cell group `g` contributes at period key `k`: the ratio of its
first point with that period, null when it has none. -/
def ratioAt (g : Group) (k : Option String) : Option Int :=
  match g.data.find? (fun p => p.period == k) with
  | some p => p.ratio
  | none => none

/-- Frame `F` tabulates the groups `gs`: one column per group in order,
rows keyed without duplication by the union of the groups' period values,
and each cell the group's ratio at the row's period (null when the group
has no point there). -/
structure Represents (gs : List Group) (F : Frame) : Prop where
  cols_eq : F.cols = gs.map seriesName
  cells_len : ∀ r ∈ F.rows, r.2.length = gs.length
  keys_nodup : (F.rows.map Prod.fst).Nodup
  keys_mem : ∀ k, k ∈ F.rows.map Prod.fst ↔ ∃ g ∈ gs, k ∈ g.data.map Point.period
  cells_eq : ∀ r ∈ F.rows, ∀ (i : Nat) (hi : i < gs.length),
      r.2[i]? = some (ratioAt gs[i] r.1)

/-- Within a period-unique point list, looking a member's period up finds
that member. -/
theorem find?_period_of_nodup : ∀ {pts : List Point} {p : Point},
    p ∈ pts → (pts.map Point.period).Nodup →
    pts.find? (fun q => q.period == p.period) = some p
  | [], p, hmem, _ => absurd hmem (List.not_mem_nil p)
  | h :: t, p, hmem, hnd => by
      rcases List.mem_cons.mp hmem with rfl | hmem'
      · exact List.find?_cons_of_pos t (by simp)
      · have hndt : (t.map Point.period).Nodup := (List.nodup_cons.mp hnd).2
        have hhead : h.period ∉ t.map Point.period := by
          simpa using (List.nodup_cons.mp hnd).1
        have hne : ¬ (h.period == p.period) = true := by
          intro hb
          exact hhead (beq_iff_eq.mp hb ▸ List.mem_map.mpr ⟨p, hmem', rfl⟩)
        rw [List.find?_cons_of_neg t hne]
        exact find?_period_of_nodup hmem' hndt

/-- A group contributes a null cell at every period it does not hold. -/
theorem ratioAt_eq_none_of_not_mem {g : Group} {k : Option String}
    (h : k ∉ g.data.map Point.period) : ratioAt g k = none := by
  have hfind : g.data.find? (fun p => p.period == k) = none := by
    rw [List.find?_eq_none]
    intro p hp hb
    exact h (beq_iff_eq.mp hb ▸ List.mem_map.mpr ⟨p, hp, rfl⟩)
  simp [ratioAt, hfind]

/-- The two-column frame of one period-unique group tabulates that group
alone. -/
theorem groupFrame_represents (g : Group)
    (hnd : (g.data.map Point.period).Nodup) :
    Represents [g] (groupFrame g) := by
  refine ⟨rfl, ?_, ?_, ?_, ?_⟩
  · intro r hr
    obtain ⟨p, hp, rfl⟩ := List.mem_map.mp hr
    rfl
  · have hkeys : (groupFrame g).rows.map Prod.fst = g.data.map Point.period := by
      simp [groupFrame, List.map_map]
    rw [hkeys]
    exact hnd
  · intro k
    have hkeys : (groupFrame g).rows.map Prod.fst = g.data.map Point.period := by
      simp [groupFrame, List.map_map]
    rw [hkeys]
    simp
  · intro r hr i hi
    obtain ⟨p, hp, rfl⟩ := List.mem_map.mp hr
    have hi0 : i = 0 := by simpa using hi
    subst hi0
    show some p.ratio = some (ratioAt g p.period)
    rw [ratioAt, find?_period_of_nodup hp hnd]

/-- Merging one more group's frame on the right tabulates one more
group. -/
theorem mergeOuter_represents {gs : List Group} {g : Group} {base fg : Frame}
    (hbase : Represents gs base) (hg : Represents [g] fg) :
    Represents (gs ++ [g]) (mergeOuter base fg) := by
  have hfgcols : fg.cols = [seriesName g] := hg.cols_eq
  have hbcols_len : base.cols.length = gs.length := by
    rw [hbase.cols_eq]; simp
  have hkeyL : ∀ r, (mergeRowLeft fg r).1 = r.1 := by
    intro r
    unfold mergeRowLeft
    cases hf : fg.rows.find? (fun s => s.1 == r.1) <;> rfl
  have hcellsL_len : ∀ r0, (mergeRowLeft fg r0).2.length = r0.2.length + 1 := by
    intro r0
    unfold mergeRowLeft
    cases hf : fg.rows.find? (fun s => s.1 == r0.1) with
    | none => simp [hfgcols]
    | some s =>
        have hs2 : s.2.length = 1 := by
          simpa using hg.cells_len s (List.mem_of_find?_eq_some hf)
        simp [hs2]
  have hrows : (mergeOuter base fg).rows
      = base.rows.map (mergeRowLeft fg)
        ++ (fg.rows.filter (fun s => !base.rows.any (fun r => r.1 == s.1))).map
            (fun s => (s.1, base.cols.map (fun _ => (none : Option Int)) ++ s.2)) := rfl
  have hLmap : (base.rows.map (mergeRowLeft fg)).map Prod.fst
      = base.rows.map Prod.fst := by
    rw [List.map_map]
    exact List.map_congr_left (fun r _ => hkeyL r)
  have hRmap : ((fg.rows.filter (fun s => !base.rows.any (fun r => r.1 == s.1))).map
        (fun s => (s.1, base.cols.map (fun _ => (none : Option Int)) ++ s.2))).map
          Prod.fst
      = (fg.rows.filter (fun s => !base.rows.any (fun r => r.1 == s.1))).map
          Prod.fst := by
    rw [List.map_map]
    exact List.map_congr_left (fun s _ => rfl)
  have hfilter_not_base : ∀ s,
      s ∈ fg.rows.filter (fun s => !base.rows.any (fun r => r.1 == s.1)) →
      s.1 ∉ base.rows.map Prod.fst := by
    intro s hs hmem
    have hπ := (List.mem_filter.mp hs).2
    simp only [Bool.not_eq_true', List.any_eq_false, beq_iff_eq] at hπ
    obtain ⟨r, hr, hre⟩ := List.mem_map.mp hmem
    exact hπ r hr hre
  refine ⟨?_, ?_, ?_, ?_, ?_⟩
  · show base.cols ++ fg.cols = (gs ++ [g]).map seriesName
    rw [hbase.cols_eq, hfgcols, List.map_append]
    rfl
  · intro r hr
    rw [hrows] at hr
    rcases List.mem_append.mp hr with hrL | hrR
    · obtain ⟨r0, hr0, rfl⟩ := List.mem_map.mp hrL
      rw [hcellsL_len r0, hbase.cells_len r0 hr0]
      simp
    · obtain ⟨s, hs0, rfl⟩ := List.mem_map.mp hrR
      have hsfg : s ∈ fg.rows := (List.mem_filter.mp hs0).1
      have hs2 : s.2.length = 1 := by simpa using hg.cells_len s hsfg
      simp [hbcols_len, hs2]
  · rw [hrows, List.map_append, hLmap, hRmap]
    refine List.Nodup.append hbase.keys_nodup ?_ ?_
    · exact List.Nodup.sublist
        ((List.filter_sublist fg.rows).map Prod.fst) hg.keys_nodup
    · rw [List.disjoint_left]
      intro k hkbase hkfilter
      obtain ⟨s, hs, rfl⟩ := List.mem_map.mp hkfilter
      exact hfilter_not_base s hs hkbase
  · intro k
    rw [hrows, List.map_append, hLmap, hRmap, List.mem_append]
    constructor
    · rintro (hkL | hkR)
      · obtain ⟨g', hg', hk⟩ := (hbase.keys_mem k).mp hkL
        exact ⟨g', List.mem_append_left _ hg', hk⟩
      · obtain ⟨s, hs, rfl⟩ := List.mem_map.mp hkR
        have hsfg : s ∈ fg.rows := (List.mem_filter.mp hs).1
        have hkfg : s.1 ∈ fg.rows.map Prod.fst := List.mem_map.mpr ⟨s, hsfg, rfl⟩
        obtain ⟨g', hg', hk⟩ := (hg.keys_mem s.1).mp hkfg
        have hgeq : g' = g := by simpa using hg'
        exact ⟨g, List.mem_append_right _ (by simp), hgeq ▸ hk⟩
    · rintro ⟨g', hg', hk⟩
      rcases List.mem_append.mp hg' with hgs | hgg
      · exact Or.inl ((hbase.keys_mem k).mpr ⟨g', hgs, hk⟩)
      · have hgeq : g' = g := by simpa using hgg
        subst hgeq
        have hkfg : k ∈ fg.rows.map Prod.fst :=
          (hg.keys_mem k).mpr ⟨g', by simp, hk⟩
        by_cases hkb : k ∈ base.rows.map Prod.fst
        · exact Or.inl hkb
        · right
          obtain ⟨s, hs, rfl⟩ := List.mem_map.mp hkfg
          refine List.mem_map.mpr ⟨s, List.mem_filter.mpr ⟨hs, ?_⟩, rfl⟩
          simp only [Bool.not_eq_true', List.any_eq_false, beq_iff_eq]
          intro r hr hre
          exact hkb (List.mem_map.mpr ⟨r, hr, hre⟩)
  · intro r hr i hi
    rw [hrows] at hr
    have hilen : i < gs.length + 1 := by simpa using hi
    rcases List.mem_append.mp hr with hrL | hrR
    · obtain ⟨r0, hr0, rfl⟩ := List.mem_map.mp hrL
      have hlen0 : r0.2.length = gs.length := hbase.cells_len r0 hr0
      rw [hkeyL r0]
      by_cases hilt : i < gs.length
      · have hget : (gs ++ [g])[i] = gs[i] := List.getElem_append_left hilt
        rw [hget]
        have hcell := hbase.cells_eq r0 hr0 i hilt
        have hproj : (mergeRowLeft fg r0).2[i]? = r0.2[i]? := by
          unfold mergeRowLeft
          cases hf : fg.rows.find? (fun s => s.1 == r0.1) with
          | none =>
              show (r0.2 ++ _)[i]? = r0.2[i]?
              rw [List.getElem?_append]
              simp [hlen0, hilt]
          | some s =>
              show (r0.2 ++ s.2)[i]? = r0.2[i]?
              rw [List.getElem?_append]
              simp [hlen0, hilt]
        rw [hproj]
        exact hcell
      · have hieq : i = gs.length := by omega
        subst hieq
        have hget : (gs ++ [g])[gs.length] = g :=
          List.getElem_concat_length gs g _ rfl hi
        rw [hget]
        unfold mergeRowLeft
        cases hf : fg.rows.find? (fun s => s.1 == r0.1) with
        | none =>
            have hnotfg : r0.1 ∉ fg.rows.map Prod.fst := by
              intro hmem
              obtain ⟨s, hs, hseq⟩ := List.mem_map.mp hmem
              have := List.find?_eq_none.mp hf s hs
              simp [hseq] at this
            have hnotg : r0.1 ∉ g.data.map Point.period := fun hmem =>
              hnotfg ((hg.keys_mem r0.1).mpr ⟨g, by simp, hmem⟩)
            rw [ratioAt_eq_none_of_not_mem hnotg]
            show (r0.2 ++ fg.cols.map _)[gs.length]? = some none
            rw [List.getElem?_append_right (by omega)]
            simp [hlen0, hfgcols]
        | some s =>
            have hs1 : s.1 = r0.1 := by
              have := List.find?_some hf
              simpa using this
            have hcell := hg.cells_eq s (List.mem_of_find?_eq_some hf) 0 (by simp)
            show (r0.2 ++ s.2)[gs.length]? = some (ratioAt g r0.1)
            rw [List.getElem?_append_right (by omega)]
            have h0 : gs.length - r0.2.length = 0 := by omega
            rw [h0]
            simpa [hs1] using hcell
    · obtain ⟨s, hs0, rfl⟩ := List.mem_map.mp hrR
      have hsfg : s ∈ fg.rows := (List.mem_filter.mp hs0).1
      have hs_not_base : s.1 ∉ base.rows.map Prod.fst := hfilter_not_base s hs0
      have hs2 : s.2.length = 1 := by simpa using hg.cells_len s hsfg
      by_cases hilt : i < gs.length
      · have hget : (gs ++ [g])[i] = gs[i] := List.getElem_append_left hilt
        rw [hget]
        have hmemg : gs[i] ∈ gs := List.getElem_mem hilt
        have hnotg : s.1 ∉ (gs[i]).data.map Point.period := by
          intro hmem
          exact hs_not_base ((hbase.keys_mem s.1).mpr ⟨_, hmemg, hmem⟩)
        rw [ratioAt_eq_none_of_not_mem hnotg]
        show (base.cols.map _ ++ s.2)[i]? = some none
        rw [List.getElem?_append]
        simp only [List.length_map, hbcols_len, hilt, if_pos]
        rw [List.getElem?_map]
        have : base.cols[i]? = some base.cols[i] :=
          List.getElem?_eq_getElem (by omega)
        rw [this]
        rfl
      · have hieq : i = gs.length := by omega
        subst hieq
        have hget : (gs ++ [g])[gs.length] = g :=
          List.getElem_concat_length gs g _ rfl hi
        rw [hget]
        have hcell := hg.cells_eq s hsfg 0 (by simp)
        show (base.cols.map _ ++ s.2)[gs.length]? = some (ratioAt g s.1)
        rw [List.getElem?_append_right (by simp [hbcols_len])]
        have h0 : gs.length - (base.cols.map
            (fun _ => (none : Option Int))).length = 0 := by
          simp [hbcols_len]
        rw [h0]
        simpa using hcell

/-- Folding the remaining groups' frames into an already-correct table
tabulates all the groups. -/
theorem foldl_merge_represents :
    ∀ (hs gs : List Group) (F : Frame), Represents gs F →
      (∀ g ∈ hs, (g.data.map Point.period).Nodup) →
      Represents (gs ++ hs)
        (hs.foldl (fun b g => mergeOuter b (groupFrame g)) F)
  | [], gs, F, hF, _ => by simpa using hF
  | h :: t, gs, F, hF, hnd => by
      have hrep := mergeOuter_represents hF
        (groupFrame_represents h (hnd h (List.mem_cons_self h t)))
      have hrec := foldl_merge_represents t (gs ++ [h]) (mergeOuter F (groupFrame h))
        hrep (fun g hg => hnd g (List.mem_cons_of_mem h hg))
      simpa [List.append_assoc] using hrec

/-- `keyLE` is transitive. -/
theorem keyLE_trans : ∀ a b c, keyLE a b = true → keyLE b c = true →
    keyLE a c = true
  | (none, _), (none, _), (none, _), _, _ => rfl
  | (none, _), (none, _), (some _, _), _, h2 => h2
  | (none, _), (some _, _), _, h1, _ => by simp [keyLE] at h1
  | (some _, _), (none, _), (none, _), _, _ => rfl
  | (some _, _), (none, _), (some _, _), _, h2 => by simp [keyLE] at h2
  | (some _, _), (some _, _), (none, _), _, _ => rfl
  | (some a, _), (some b, _), (some c, _), h1, h2 => by
      simp only [keyLE, decide_eq_true_eq] at h1 h2 ⊢
      exact le_trans h1 h2

/-- `keyLE` is total. -/
theorem keyLE_total : ∀ a b, (keyLE a b || keyLE b a) = true
  | (none, _), (none, _) => rfl
  | (none, _), (some _, _) => rfl
  | (some _, _), (none, _) => rfl
  | (some a, _), (some b, _) => by
      simp only [keyLE, Bool.or_eq_true, decide_eq_true_eq]
      exact le_total a b

/-- Sorting the rows by period preserves the tabulation. -/
theorem sortFrame_represents {gs : List Group} {F : Frame}
    (h : Represents gs F) : Represents gs (sortFrame F) := by
  have hperm : (F.rows.mergeSort keyLE).Perm F.rows :=
    List.mergeSort_perm F.rows keyLE
  refine ⟨h.cols_eq, ?_, ?_, ?_, ?_⟩
  · intro r hr
    exact h.cells_len r (hperm.mem_iff.mp hr)
  · exact ((hperm.map Prod.fst).nodup_iff).mpr h.keys_nodup
  · intro k
    have hrw : (sortFrame F).rows = F.rows.mergeSort keyLE := rfl
    rw [hrw, (hperm.map Prod.fst).mem_iff]
    exact h.keys_mem k
  · intro r hr i hi
    exact h.cells_eq r (hperm.mem_iff.mp hr) i hi

/-- The rows of the merger's result are sorted ascending by period. -/
theorem sortFrame_sorted (F : Frame) :
    List.Pairwise (fun r s => keyLE r s = true) (sortFrame F).rows :=
  List.sorted_mergeSort keyLE_trans keyLE_total F.rows

/-- Claim C9: `datalab_to_dataframe` drops groups with no data points or
without a `period`/`ratio` column; when zero groups survive it returns
the explicitly empty table; otherwise — for period-unique surviving
groups (the time-series shape on which the pandas outer merge is the
plain union-of-keys join the claim describes) with pairwise distinct
names, none of them "period" — the table has one column per surviving
group in order, its rows are keyed without duplication by the union of
the surviving groups' period values sorted ascending, and the cell of a
row in a group's column holds that group's ratio at the row's period,
null when the group has no point there (outer join). -/
theorem C9_datalab_outer_join (results : List Group)
    (hWF : ∀ g ∈ results, survives g = true → (g.data.map Point.period).Nodup)
    (hNames : ((results.filter survives).map seriesName).Nodup)
    (hNoPeriod : ∀ g ∈ results.filter survives, seriesName g ≠ "period") :
    (results.filter survives = [] →
        datalab_to_dataframe results = ⟨[], []⟩)
    ∧ (datalab_to_dataframe results).cols
        = (results.filter survives).map seriesName
    ∧ List.Pairwise (fun r s => keyLE r s = true)
        (datalab_to_dataframe results).rows
    ∧ ((datalab_to_dataframe results).rows.map Prod.fst).Nodup
    ∧ (∀ k, k ∈ (datalab_to_dataframe results).rows.map Prod.fst
          ↔ ∃ g ∈ results.filter survives, k ∈ g.data.map Point.period)
    ∧ (∀ r ∈ (datalab_to_dataframe results).rows,
          r.2.length = (results.filter survives).length
          ∧ ∀ (i : Nat) (hi : i < (results.filter survives).length),
              r.2[i]? = some (ratioAt (results.filter survives)[i] r.1)) := by
  cases hsurv : results.filter survives with
  | nil =>
      have hdf : datalab_to_dataframe results = ⟨[], []⟩ := by
        unfold datalab_to_dataframe
        rw [hsurv]
        rfl
      refine ⟨fun _ => hdf, ?_, ?_, ?_, ?_, ?_⟩ <;> rw [hdf] <;> simp
  | cons g0 gs' =>
      have hg0mem : g0 ∈ results.filter survives := by
        rw [hsurv]; exact List.mem_cons_self _ _
      have hnd : ∀ g ∈ results.filter survives,
          (g.data.map Point.period).Nodup := by
        intro g hgmem
        have hm := List.mem_filter.mp hgmem
        exact hWF g hm.1 hm.2
      have hnd0 : (g0.data.map Point.period).Nodup := hnd g0 hg0mem
      have hndt : ∀ g ∈ gs', (g.data.map Point.period).Nodup := by
        intro g hgmem
        exact hnd g (by rw [hsurv]; exact List.mem_cons_of_mem _ hgmem)
      have hdf : datalab_to_dataframe results
          = sortFrame (gs'.foldl (fun b g => mergeOuter b (groupFrame g))
              (groupFrame g0)) := by
        unfold datalab_to_dataframe
        rw [hsurv]
        show sortFrame ((gs'.map groupFrame).foldl mergeOuter (groupFrame g0)) = _
        rw [List.foldl_map]
      have hrep : Represents ([g0] ++ gs')
          (gs'.foldl (fun b g => mergeOuter b (groupFrame g)) (groupFrame g0)) :=
        foldl_merge_represents gs' [g0] (groupFrame g0)
          (groupFrame_represents g0 hnd0) hndt
      have hreps : Represents (g0 :: gs')
          (sortFrame (gs'.foldl (fun b g => mergeOuter b (groupFrame g))
              (groupFrame g0))) :=
        sortFrame_represents hrep
      refine ⟨?_, ?_, ?_, ?_, ?_, ?_⟩
      · intro h
        exact absurd h (List.cons_ne_nil _ _)
      · rw [hdf]
        exact hreps.cols_eq
      · rw [hdf]
        exact sortFrame_sorted _
      · rw [hdf]
        exact hreps.keys_nodup
      · intro k
        rw [hdf]
        exact hreps.keys_mem k
      · intro r hr
        rw [hdf] at hr
        exact ⟨hreps.cells_len r hr, fun i hi => hreps.cells_eq r hr i hi⟩

/-- Demo group A of the spec's outer-join example: periods d1, d2. -/
def demoGroupA : Group :=
  ⟨some "A", none, none, [⟨some "d1", some 10⟩, ⟨some "d2", some 20⟩]⟩

/-- Demo group B of the spec's outer-join example: periods d2, d3. -/
def demoGroupB : Group :=
  ⟨none, some "B", none, [⟨some "d2", some 30⟩, ⟨some "d3", some 40⟩]⟩

/-- A group with no data points (dropped by the merger). -/
def demoGroupEmpty : Group := ⟨some "E", none, none, []⟩

/-- A group whose only point lacks the ratio field (dropped: its frame
has no ratio column). -/
def demoGroupNoRatio : Group := ⟨some "N", none, none, [⟨some "d1", none⟩]⟩

/-- A concrete DataLab response for the witness. -/
def demoResults : List Group :=
  [demoGroupA, demoGroupEmpty, demoGroupB, demoGroupNoRatio]

theorem C9_datalab_outer_join_witness :
    (∀ g ∈ demoResults, survives g = true → (g.data.map Point.period).Nodup)
    ∧ (datalab_to_dataframe demoResults).cols
        = (demoResults.filter survives).map seriesName
    ∧ List.Pairwise (fun r s => keyLE r s = true)
        (datalab_to_dataframe demoResults).rows :=
  ⟨by decide,
    (C9_datalab_outer_join demoResults (by decide) (by decide) (by decide)).2.1,
    (C9_datalab_outer_join demoResults (by decide) (by decide) (by decide)).2.2.1⟩

end LightEz
